import Mathlib

/-!
Verification of the radium HTML-subset rendering pipeline
(tokenizer → tree builder → block-flow layout engine).

The Rust sources are shallowly embedded:
  * strings are Lean `String` / `List Char` (Rust's Unicode classifiers
    `char::is_alphanumeric` / `char::is_whitespace` / `to_lowercase` are
    modelled by the corresponding ASCII-faithful Lean `Char` functions);
  * `HashMap<String, String>` is modelled by an association list with
    insert-replaces-existing-key semantics (iteration order is never used
    by the code under verification, only lookup);
  * `f32` values are modelled by `ℚ` (all layout arithmetic is
    `+ - * / min max round` on small decimal constants);
  * the two `while` loops of the tree builder pop exactly one stack frame
    per iteration, so each loop is embedded as `popN` (iterate the loop
    body a number of times computed from the loop bound), and the
    `Vec::pop().unwrap()` / `last_mut().unwrap()` calls are embedded in
    `Option` so that a `none` result models a Rust panic;
  * the tokenizer's top-level scan loop consumes at least one character
    per iteration, so it is embedded with a fuel argument initialised to
    `length + 1`, which can never be exhausted.
-/

namespace Radium

/-! ### Data model (src/parser/mod.rs, src/parser/dom.rs) -/

/-- `Token` from src/parser/mod.rs. -/
inductive Token where
  | doctype
  | openTag (name : String) (attrs : List (String × String)) (self_closing : Bool)
  | closeTag (name : String)
  | text (content : String)
deriving DecidableEq, Repr

/-- `Node` from src/parser/dom.rs. -/
inductive Node where
  | element (tag : String) (attrs : List (String × String)) (children : List Node)
  | text (content : String)
deriving Repr

/-! ### Tokenizer (src/parser/mod.rs) -/

/-- Rust `str::to_lowercase` (ASCII model). -/
def toLowerStr (s : String) : String := String.mk (s.data.map Char.toLower)

/-- Character class accepted by `read_name`. -/
def isNameChar (c : Char) : Bool := c.isAlphanum || c = '-' || c = '_' || c = ':'

/-- `read_name`: take the longest prefix of name characters. -/
def read_name (cs : List Char) : String × List Char :=
  let p := cs.span isNameChar
  (String.mk p.1, p.2)

/-- `skip_until`: drop characters strictly before the stop character
(the stop character itself is left in the stream). -/
def skip_until (stop : Char) (cs : List Char) : List Char :=
  cs.dropWhile (fun c => c ≠ stop)

/-- `read_text`: take characters up to the next opening angle bracket. -/
def read_text (cs : List Char) : String × List Char :=
  let p := cs.span (fun c => c ≠ '<')
  (String.mk p.1, p.2)

/-- Whitespace skipping inside `parse_tag_body`. -/
def skipWs (cs : List Char) : List Char := cs.dropWhile Char.isWhitespace

/-- Character at which `read_attr_name` stops. -/
def isAttrNameStop (c : Char) : Bool := c.isWhitespace || c = '=' || c = '>' || c = '/'

/-- `read_attr_name`. -/
def read_attr_name (cs : List Char) : String × List Char :=
  let p := cs.span (fun c => !isAttrNameStop c)
  (String.mk p.1, p.2)

/-- `read_attr_value`: quoted (single or double quote, consuming the closing
quote) or unquoted (up to whitespace or the closing angle bracket). -/
def read_attr_value (cs : List Char) : String × List Char :=
  match cs with
  | [] => ("", [])
  | q :: rest =>
    if q = '"' ∨ q.toNat = 39 then
      let p := rest.span (fun c => c ≠ q)
      (String.mk p.1, p.2.drop 1)
    else
      let p := cs.span (fun c => !(c.isWhitespace || c = '>'))
      (String.mk p.1, p.2)

/-- `HashMap::insert`: replace the value of an existing key, else append. -/
def insertAttr (attrs : List (String × String)) (key value : String) :
    List (String × String) :=
  if attrs.any (fun kv => kv.1 == key) then
    attrs.map (fun kv => if kv.1 == key then (key, value) else kv)
  else attrs ++ [(key, value)]

/-- The attribute loop of `parse_tag_body`.  Every iteration either stops or
consumes at least one character, so fuel `length + 1` is never exhausted. -/
def parse_tag_body_go : Nat → List (String × String) → List Char →
    (List (String × String) × Bool) × List Char
  | 0, attrs, cs => ((attrs, false), cs)
  | fuel + 1, attrs, cs =>
    let cs1 := skipWs cs
    match cs1 with
    | [] => ((attrs, false), cs1)
    | '>' :: rest => ((attrs, false), rest)
    | '/' :: rest =>
      match rest with
      | '>' :: rest2 => ((attrs, true), rest2)
      | _ => ((attrs, false), rest)
    | _ =>
      let pr := read_attr_name cs1
      if pr.1 = "" then parse_tag_body_go fuel attrs (pr.2.drop 1)
      else
        let cs3 := skipWs pr.2
        match cs3 with
        | '=' :: cs4 =>
          let pv := read_attr_value (skipWs cs4)
          parse_tag_body_go fuel (insertAttr attrs (toLowerStr pr.1) pv.1) pv.2
        | _ => parse_tag_body_go fuel (insertAttr attrs (toLowerStr pr.1) "") cs3

/-- `parse_tag_body`. -/
def parse_tag_body (cs : List Char) : (List (String × String) × Bool) × List Char :=
  parse_tag_body_go (cs.length + 1) [] cs

/-- `collapse_whitespace` accumulator loop: collapse whitespace runs to a
single space, dropping leading whitespace via the initial flag. -/
def collapseWsGo : Bool → List Char → List Char
  | _, [] => []
  | prevWs, c :: rest =>
    if c.isWhitespace then
      if prevWs then collapseWsGo true rest
      else ' ' :: collapseWsGo true rest
    else c :: collapseWsGo false rest

/-- Rust `str::trim_end` on a character list. -/
def rustTrimEnd (l : List Char) : List Char :=
  (l.reverse.dropWhile Char.isWhitespace).reverse

/-- `collapse_whitespace` from src/parser/mod.rs. -/
def collapse_whitespace (s : String) : String :=
  String.mk (rustTrimEnd (collapseWsGo true s.data))

/-- The tokenizer's main scan loop.  Each iteration consumes at least one
character, so fuel `length + 1` is never exhausted. -/
def tokenizeGo : Nat → List Char → List Token
  | 0, _ => []
  | fuel + 1, cs =>
    match cs with
    | [] => []
    | '<' :: rest =>
      match rest with
      | '/' :: rest2 =>
        let pr := read_name rest2
        let rest5 := (skip_until '>' pr.2).drop 1
        if pr.1 = "" then tokenizeGo fuel rest5
        else Token.closeTag (toLowerStr pr.1) :: tokenizeGo fuel rest5
      | '!' :: rest2 =>
        Token.doctype :: tokenizeGo fuel ((skip_until '>' rest2).drop 1)
      | '?' :: _ =>
        tokenizeGo fuel ((skip_until '>' rest).drop 1)
      | _ =>
        let pr := read_name rest
        if pr.1 = "" then tokenizeGo fuel ((skip_until '>' pr.2).drop 1)
        else
          let pb := parse_tag_body pr.2
          Token.openTag (toLowerStr pr.1) pb.1.1 pb.1.2 :: tokenizeGo fuel pb.2
    | _ :: _ =>
      let pr := read_text cs
      let collapsed := collapse_whitespace pr.1
      if collapsed = "" then tokenizeGo fuel pr.2
      else Token.text collapsed :: tokenizeGo fuel pr.2

/-- `tokenize` from src/parser/mod.rs. -/
def tokenize (input : String) : List Token :=
  tokenizeGo (input.data.length + 1) input.data

/-! ### Tree builder (src/parser/dom.rs) -/

/-- `is_void` from src/parser/dom.rs. -/
def is_void (tag : String) : Bool :=
  match tag with
  | "area" | "base" | "br" | "col" | "embed" | "hr" | "img" | "input"
  | "link" | "meta" | "param" | "source" | "track" | "wbr" => true
  | _ => false

/-- `Partial` from src/parser/dom.rs (a frame of the open-element stack).
The stack is a `List Partial` whose head is the top of the stack. -/
structure Partial' where
  tag : String
  attrs : List (String × String)
  children : List Node

/-- One iteration of the stack-collapsing loops: pop the top frame,
materialize it as an `Element`, and append it to the children of the new
top of stack.  `none` models the panic of `pop().unwrap()` /
`last_mut().unwrap()` when fewer than two frames remain. -/
def popTopInto (stack : List Partial') : Option (List Partial') :=
  match stack with
  | p :: q :: rest =>
    some ({ q with children := q.children ++ [Node.element p.tag p.attrs p.children] } :: rest)
  | _ => none

/-- Iterate `popTopInto` a fixed number of times.  A `while stack.len() > t`
loop that pops exactly one frame per iteration runs `len - t` times, so it is
embedded as `popN (len - t)`. -/
def popN : Nat → List Partial' → Option (List Partial')
  | 0, stack => some stack
  | n + 1, stack =>
    match popTopInto stack with
    | none => none
    | some s => popN n s

/-- The `Token::CloseTag` arm of `build_tree`: find the topmost frame whose
tag matches (`rposition` from the bottom = first index from the top), run the
`while stack.len() > pos + 1` collapsing loop (which pops exactly the `i`
frames above the match), then pop the matching frame itself. -/
def handleClose (name : String) (stack : List Partial') : Option (List Partial') :=
  match stack.findIdx? (fun p => p.tag == name) with
  | none => some stack
  | some i =>
    match popN i stack with
    | none => none
    | some s => popTopInto s

/-- One iteration of the token loop of `build_tree`. -/
def stepToken (stack : List Partial') (t : Token) : Option (List Partial') :=
  match t with
  | Token.doctype => some stack
  | Token.openTag name attrs self_closing =>
    if self_closing || is_void name then
      match stack with
      | top :: rest =>
        some ({ top with children := top.children ++ [Node.element name attrs []] } :: rest)
      | [] => none
    else
      some (⟨name, attrs, []⟩ :: stack)
  | Token.closeTag name => handleClose name stack
  | Token.text content =>
    match stack with
    | top :: rest => some ({ top with children := top.children ++ [Node.text content] } :: rest)
    | [] => none

/-- `build_tree` from src/parser/dom.rs.  The final flush loop
(`while stack.len() > 1`) pops `len - 1` frames; the result is the children
of the remaining virtual root.  `none` models a panic. -/
def build_tree (tokens : List Token) : Option (List Node) :=
  match tokens.foldlM stepToken [(⟨"", [], []⟩ : Partial')] with
  | none => none
  | some stack =>
    match popN (stack.length - 1) stack with
    | none => none
    | some flushed =>
      match flushed with
      | root :: _ => some root.children
      | [] => none

/-! ### Layout engine (src/layout/mod.rs)

`f32` is modelled by `ℚ`; the literal `1.4` is the real constant 7/5.
The external collaborators of `layout_img` — the base directory, the file
system and the `image` crate decoder — are modelled by an oracle
`images : String → Option Img` in the context, mapping the `src` attribute
(resolved against the base directory) to decoded RGBA8 data and pixel
dimensions; `none` models a missing `src` target or a failed decode
(which the code logs and skips). -/

/-- `LayoutBox.cmd` payloads (`PaintCmd` in src/layout/mod.rs). -/
inductive PaintCmd where
  | text (content : String) (font_size : ℚ) (bold : Bool) (italic : Bool)
      (color : ℕ) (underline : Bool)
  | fillRect (color : ℕ)
  | hline (color : ℕ)
  | image (data : List ℕ) (img_width : ℕ) (img_height : ℕ)
deriving DecidableEq, Repr

/-- `LayoutBox` from src/layout/mod.rs. -/
structure LayoutBox where
  x : ℚ
  y : ℚ
  width : ℚ
  height : ℚ
  cmd : PaintCmd
deriving DecidableEq, Repr

/-- `Style` from src/layout/mod.rs. -/
structure Style where
  font_size : ℚ
  bold : Bool
  italic : Bool
  color : ℕ
  underline : Bool
  indent : ℚ
deriving DecidableEq, Repr

/-- `Style::default()`. -/
def defaultStyle : Style :=
  { font_size := 16, bold := false, italic := false, color := 0x000000,
    underline := false, indent := 0 }

/-- A decoded image: raw RGBA8 bytes plus pixel dimensions, as produced by
`image::open(..)` followed by `to_rgba8()`. -/
structure Img where
  data : List ℕ
  width : ℕ
  height : ℕ

/-- `Ctx` from src/layout/mod.rs.  The `boxes` vector is not part of the
embedded context: every layout function returns the boxes it pushes (in push
order) together with the new cursor. -/
structure LCtx where
  pad : ℚ
  width : ℚ
  viewport_width : ℚ
  images : String → Option Img

/-- `PAGE_PAD` from src/layout/mod.rs. -/
def PAGE_PAD : ℚ := 16

/-- `MARKER_INDENT` from src/layout/mod.rs. -/
def MARKER_INDENT : ℚ := 24

/-- `line_height` from src/layout/mod.rs (`font_size * 1.4`). -/
def line_height (font_size : ℚ) : ℚ := font_size * (7 / 5)

/-- Rust `str::trim` (drop whitespace at both ends). -/
def rustTrim (s : String) : String :=
  String.mk (((s.data.dropWhile Char.isWhitespace).reverse.dropWhile Char.isWhitespace).reverse)

/-- Rust `f32::round`: round half away from zero. -/
def roundHalfAway (q : ℚ) : ℤ :=
  if 0 ≤ q then ⌊q + 1 / 2⌋ else ⌈q - 1 / 2⌉

/-- `(style.indent / MARKER_INDENT).round() as usize` (the cast saturates
negative values to zero). -/
def depthOf (indent : ℚ) : ℕ :=
  (roundHalfAway (indent / MARKER_INDENT)).toNat

/-- The bullet chosen per nesting depth in `layout_list`. -/
def bullet_symbol (depth : ℕ) : String :=
  match depth with
  | 1 => "•"
  | 2 => "◦"
  | _ => "▪"

/-- `layout_img` from src/layout/mod.rs. -/
def layout_img (attrs : List (String × String)) (ctx : LCtx) (y : ℚ) :
    List LayoutBox × ℚ :=
  match List.lookup "src" attrs with
  | none => ([], y)
  | some src =>
    match ctx.images src with
    | none => ([], y)
    | some img =>
      let display_w := min ctx.width (img.width : ℚ)
      let scale := display_w / (img.width : ℚ)
      let display_h := (img.height : ℚ) * scale
      ([{ x := ctx.pad, y := y, width := display_w, height := display_h,
          cmd := PaintCmd.image img.data img.width img.height }],
       y + display_h + 8)

mutual

/-- `layout_node` from src/layout/mod.rs. -/
def layout_node (node : Node) (ctx : LCtx) (y : ℚ) (style : Style) :
    List LayoutBox × ℚ :=
  match node with
  | Node.text content =>
    let text := rustTrim content
    if text = "" then ([], y)
    else
      let h := line_height style.font_size
      ([{ x := ctx.pad + style.indent, y := y, width := ctx.width - style.indent,
          height := h,
          cmd := PaintCmd.text text style.font_size style.bold style.italic
            style.color style.underline }],
       y + h)
  | Node.element tag attrs children => layout_element tag attrs children ctx y style
termination_by (sizeOf node, 1)

/-- `layout_element` from src/layout/mod.rs. -/
def layout_element (tag : String) (attrs : List (String × String))
    (children : List Node) (ctx : LCtx) (y : ℚ) (style : Style) :
    List LayoutBox × ℚ :=
  match tag with
  | "head" | "title" | "script" | "style" | "meta" | "link" => ([], y)
  | "html" | "body" | "div" | "section" | "article" | "main" | "header" | "footer" =>
    layout_children children ctx y style
  | "h1" => heading children ctx y style 32 24 16 none none
  | "h2" => heading children ctx y style 24 20 12 none none
  | "h3" => heading children ctx y style 20 16 8 none none
  | "p" => block children ctx y style 0 16 style
  | "ul" | "ol" =>
    let inner := { style with indent := style.indent + MARKER_INDENT }
    let y1 := y + 8
    let r := layout_list tag children ctx y1 inner
    (r.1, r.2 + 8)
  | "strong" => layout_children children ctx y { style with bold := true }
  | "em" => layout_children children ctx y { style with italic := true }
  | "a" => layout_children children ctx y { style with color := 0x0000EE, underline := true }
  | "span" => layout_children children ctx y style
  | "br" => ([], y + line_height style.font_size)
  | "hr" =>
    let mid := y + 8
    ([{ x := ctx.pad, y := mid, width := ctx.width, height := 1,
        cmd := PaintCmd.hline 0xAAAAAA }],
     mid + 1 + 8)
  | "img" => layout_img attrs ctx y
  | _ => layout_children children ctx y style
termination_by (sizeOf children, 4)

/-- `block` from src/layout/mod.rs. -/
def block (children : List Node) (ctx : LCtx) (y : ℚ) (_parent : Style)
    (mt mb : ℚ) (style : Style) : List LayoutBox × ℚ :=
  let r := layout_children children ctx (y + mt) style
  (r.1, r.2 + mb)
termination_by (sizeOf children, 3)

/-- `heading` from src/layout/mod.rs. -/
def heading (children : List Node) (ctx : LCtx) (y : ℚ) (parent_style : Style)
    (font_size mt mb : ℚ) (bg border : Option ℕ) : List LayoutBox × ℚ :=
  let style := { parent_style with font_size := font_size, bold := true }
  let top := y + mt
  let bgBoxes : List LayoutBox :=
    match bg with
    | some color =>
      [{ x := 0, y := top - 6, width := ctx.viewport_width,
         height := line_height font_size + 12, cmd := PaintCmd.fillRect color }]
    | none => []
  let r := layout_children children ctx top style
  match border with
  | some color =>
    (bgBoxes ++ r.1 ++
      [{ x := ctx.pad, y := r.2 + 4, width := ctx.width, height := 1,
         cmd := PaintCmd.hline color }],
     r.2 + 5 + mb)
  | none => (bgBoxes ++ r.1, r.2 + mb)
termination_by (sizeOf children, 3)

/-- `layout_children` from src/layout/mod.rs (the cursor-threading loop). -/
def layout_children (children : List Node) (ctx : LCtx) (y : ℚ) (style : Style) :
    List LayoutBox × ℚ :=
  match children with
  | [] => ([], y)
  | c :: rest =>
    let r1 := layout_node c ctx y style
    let r2 := layout_children rest ctx r1.2 style
    (r1.1 ++ r2.1, r2.2)
termination_by (sizeOf children, 0)

/-- `layout_list` from src/layout/mod.rs: the counter starts at 1. -/
def layout_list (list_tag : String) (children : List Node) (ctx : LCtx)
    (y : ℚ) (style : Style) : List LayoutBox × ℚ :=
  layout_list_go list_tag children ctx y style 1
termination_by (sizeOf children, 2)

/-- The item loop of `layout_list`: non-`li` children are skipped, each `li`
gets a marker box in the gutter and its children laid out at the current
cursor, which then advances by at least one line height plus the 4-unit gap. -/
def layout_list_go (list_tag : String) (children : List Node) (ctx : LCtx)
    (y : ℚ) (style : Style) (counter : ℕ) : List LayoutBox × ℚ :=
  match children with
  | [] => ([], y)
  | child :: rest =>
    match child with
    | Node.text _ => layout_list_go list_tag rest ctx y style counter
    | Node.element tag _ li_children =>
      if tag = "li" then
        let depth := depthOf style.indent
        let marker :=
          if list_tag = "ol" then toString counter ++ "."
          else bullet_symbol depth
        let h := line_height style.font_size
        let marker_x := ctx.pad + style.indent - MARKER_INDENT
        let mbox : LayoutBox :=
          { x := marker_x, y := y, width := MARKER_INDENT, height := h,
            cmd := PaintCmd.text marker style.font_size style.bold style.italic
              0x555555 false }
        let r := layout_children li_children ctx y style
        let y2 := max r.2 (y + h) + 4
        let rrest := layout_list_go list_tag rest ctx y2 style (counter + 1)
        (mbox :: r.1 ++ rrest.1, rrest.2)
      else layout_list_go list_tag rest ctx y style counter
termination_by (sizeOf children, 1)

end

/-- `layout` from src/layout/mod.rs: build the context, then thread the
cursor (starting at `PAGE_PAD`) through the top-level nodes with the default
style — the entry loop is exactly `layout_children`. -/
def layout (nodes : List Node) (viewport_width : ℚ) (images : String → Option Img) :
    List LayoutBox :=
  let ctx : LCtx :=
    { pad := PAGE_PAD, width := viewport_width - PAGE_PAD * 2,
      viewport_width := viewport_width, images := images }
  (layout_children nodes ctx PAGE_PAD defaultStyle).1

/-- The empty image oracle: no `src` resolves to a decodable image. -/
def noImg : String → Option Img := fun _ => none

/-- Marker boxes are the muted-color (`0x555555`) text boxes painted in the
list gutter. -/
def isMarkerBox (b : LayoutBox) : Bool :=
  match b.cmd with
  | PaintCmd.text _ _ _ _ col _ => col == 0x555555
  | _ => false

/-- Recognizer for `FillRect` boxes (full-bleed heading backgrounds). -/
def isFillRectBox (b : LayoutBox) : Bool :=
  match b.cmd with
  | PaintCmd.fillRect _ => true
  | _ => false

/-! ### Cursor monotonicity -/

/-- The cursor/box invariant for one layout call starting at cursor `y`:
the returned cursor is at least `y`, every emitted box sits between `y` and
the returned cursor, and the emitted y-coordinates are non-decreasing in
emission order. -/
def Mono (y : ℚ) (out : List LayoutBox × ℚ) : Prop :=
  y ≤ out.2 ∧ (∀ b ∈ out.1, y ≤ b.y ∧ b.y ≤ out.2) ∧
    List.Chain' (· ≤ ·) (out.1.map LayoutBox.y)

theorem mono_nil {y y' : ℚ} (h : y ≤ y') : Mono y ([], y') :=
  ⟨h, by simp, by simp⟩

theorem mono_single {y y' : ℚ} {b : LayoutBox} (h1 : y ≤ b.y) (h2 : b.y ≤ y') :
    Mono y ([b], y') :=
  ⟨le_trans h1 h2, by simp [h1, h2], by simp⟩

theorem mono_append {y y1 y2 : ℚ} {bs1 bs2 : List LayoutBox}
    (h1 : Mono y (bs1, y1)) (h2 : Mono y1 (bs2, y2)) : Mono y (bs1 ++ bs2, y2) := by
  obtain ⟨ha1, hb1, hc1⟩ := h1
  obtain ⟨ha2, hb2, hc2⟩ := h2
  refine ⟨le_trans ha1 ha2, ?_, ?_⟩
  · intro b hb
    rcases List.mem_append.1 hb with h | h
    · exact ⟨(hb1 b h).1, le_trans (hb1 b h).2 ha2⟩
    · exact ⟨le_trans ha1 (hb2 b h).1, (hb2 b h).2⟩
  · rw [List.map_append, List.chain'_append]
    refine ⟨hc1, hc2, ?_⟩
    intro x hx z hz
    rw [List.getLast?_map] at hx
    rw [List.head?_map] at hz
    obtain ⟨b1, hg, rfl⟩ := Option.map_eq_some'.1 (Option.mem_def.1 hx)
    obtain ⟨b2, hh, rfl⟩ := Option.map_eq_some'.1 (Option.mem_def.1 hz)
    have m1 : b1 ∈ bs1 := List.mem_of_mem_getLast? (Option.mem_def.2 hg)
    have m2 : b2 ∈ bs2 := List.mem_of_mem_head? (Option.mem_def.2 hh)
    exact le_trans (hb1 b1 m1).2 (hb2 b2 m2).1

theorem mono_weaken {y y1 y3 : ℚ} {out : List LayoutBox × ℚ}
    (h0 : y ≤ y1) (h : Mono y1 out) (h2 : out.2 ≤ y3) : Mono y (out.1, y3) := by
  obtain ⟨ha, hb, hc⟩ := h
  exact ⟨le_trans h0 (le_trans ha h2), fun b m =>
    ⟨le_trans h0 (hb b m).1, le_trans (hb b m).2 h2⟩, hc⟩

theorem mono_img {attrs : List (String × String)} {ctx : LCtx} {y : ℚ}
    (hw : 0 ≤ ctx.width) : Mono y (layout_img attrs ctx y) := by
  unfold layout_img
  cases List.lookup "src" attrs with
  | none => exact mono_nil le_rfl
  | some src =>
    dsimp only
    cases ctx.images src with
    | none => exact mono_nil le_rfl
    | some img =>
      dsimp only
      have hdw : (0 : ℚ) ≤ min ctx.width (img.width : ℚ) :=
        le_min hw (by positivity)
      have hs : (0 : ℚ) ≤ min ctx.width (img.width : ℚ) / (img.width : ℚ) :=
        div_nonneg hdw (by positivity)
      have hdh : (0 : ℚ) ≤ (img.height : ℚ) * (min ctx.width (img.width : ℚ) / (img.width : ℚ)) :=
        mul_nonneg (by positivity) hs
      refine mono_single le_rfl ?_
      dsimp only
      linarith

theorem mono_master (n : ℕ) :
    (∀ (node : Node) (ctx : LCtx) (y : ℚ) (style : Style), sizeOf node ≤ n →
      0 ≤ ctx.width → 0 ≤ style.font_size → Mono y (layout_node node ctx y style)) ∧
    (∀ (cs : List Node) (ctx : LCtx) (y : ℚ) (style : Style), sizeOf cs ≤ n →
      0 ≤ ctx.width → 0 ≤ style.font_size → Mono y (layout_children cs ctx y style)) ∧
    (∀ (tg : String) (cs : List Node) (ctx : LCtx) (y : ℚ) (style : Style) (c : ℕ),
      sizeOf cs ≤ n → 0 ≤ ctx.width → 0 ≤ style.font_size →
      Mono y (layout_list_go tg cs ctx y style c)) := by
  induction n using Nat.strong_induction_on with
  | _ n IH =>
    have IHnode : ∀ (node : Node) (ctx : LCtx) (y : ℚ) (style : Style), sizeOf node < n →
        0 ≤ ctx.width → 0 ≤ style.font_size → Mono y (layout_node node ctx y style) :=
      fun node ctx y style h => (IH (sizeOf node) h).1 node ctx y style le_rfl
    have IHchildren : ∀ (cs : List Node) (ctx : LCtx) (y : ℚ) (style : Style),
        sizeOf cs < n → 0 ≤ ctx.width → 0 ≤ style.font_size →
        Mono y (layout_children cs ctx y style) :=
      fun cs ctx y style h => (IH (sizeOf cs) h).2.1 cs ctx y style le_rfl
    have IHlist : ∀ (tg : String) (cs : List Node) (ctx : LCtx) (y : ℚ) (style : Style)
        (c : ℕ), sizeOf cs < n → 0 ≤ ctx.width → 0 ≤ style.font_size →
        Mono y (layout_list_go tg cs ctx y style c) :=
      fun tg cs ctx y style c h => (IH (sizeOf cs) h).2.2 tg cs ctx y style c le_rfl
    refine ⟨?_, ?_, ?_⟩
    · intro node ctx y style hsz hw hf
      cases node with
      | text content =>
        simp only [layout_node]
        split
        · exact mono_nil le_rfl
        · refine mono_single le_rfl ?_
          dsimp only [line_height]
          linarith [mul_nonneg hf (by norm_num : (0 : ℚ) ≤ 7 / 5)]
      | element tag attrs children =>
        have hlt : sizeOf children < n := by
          have h1 : sizeOf children < sizeOf (Node.element tag attrs children) := by
            simp only [Node.element.sizeOf_spec]; omega
          omega
        simp only [layout_node]
        unfold layout_element
        have hf14 : (0 : ℚ) ≤ line_height style.font_size := by
          dsimp only [line_height]
          nlinarith [mul_nonneg hf (by norm_num : (0 : ℚ) ≤ 7 / 5)]
        split
        · exact mono_nil le_rfl
        · exact mono_nil le_rfl
        · exact mono_nil le_rfl
        · exact mono_nil le_rfl
        · exact mono_nil le_rfl
        · exact mono_nil le_rfl
        · exact IHchildren children ctx y style hlt hw hf
        · exact IHchildren children ctx y style hlt hw hf
        · exact IHchildren children ctx y style hlt hw hf
        · exact IHchildren children ctx y style hlt hw hf
        · exact IHchildren children ctx y style hlt hw hf
        · exact IHchildren children ctx y style hlt hw hf
        · exact IHchildren children ctx y style hlt hw hf
        · exact IHchildren children ctx y style hlt hw hf
        · unfold heading
          dsimp only [List.nil_append]
          exact mono_weaken (by linarith)
            (IHchildren children ctx _ _ hlt hw (by norm_num)) (by linarith)
        · unfold heading
          dsimp only [List.nil_append]
          exact mono_weaken (by linarith)
            (IHchildren children ctx _ _ hlt hw (by norm_num)) (by linarith)
        · unfold heading
          dsimp only [List.nil_append]
          exact mono_weaken (by linarith)
            (IHchildren children ctx _ _ hlt hw (by norm_num)) (by linarith)
        · unfold block
          exact mono_weaken (by linarith)
            (IHchildren children ctx _ _ hlt hw hf) (by linarith)
        · unfold layout_list
          dsimp only
          exact mono_weaken (by linarith)
            (IHlist _ children ctx _ _ 1 hlt hw hf) (by linarith)
        · unfold layout_list
          dsimp only
          exact mono_weaken (by linarith)
            (IHlist _ children ctx _ _ 1 hlt hw hf) (by linarith)
        · exact IHchildren children ctx y _ hlt hw hf
        · exact IHchildren children ctx y _ hlt hw hf
        · exact IHchildren children ctx y _ hlt hw hf
        · exact IHchildren children ctx y style hlt hw hf
        · exact mono_nil (by linarith)
        · dsimp only
          exact mono_single (by dsimp only; linarith) (by dsimp only; linarith)
        · exact mono_img hw
        · exact IHchildren children ctx y style hlt hw hf
    · intro cs ctx y style hsz hw hf
      cases cs with
      | nil =>
        simp only [layout_children]
        exact mono_nil le_rfl
      | cons c rest =>
        have hc : sizeOf c < n := by
          have h1 : sizeOf c < sizeOf (c :: rest) := by simp; omega
          omega
        have hrest : sizeOf rest < n := by
          have h1 : sizeOf rest < sizeOf (c :: rest) := by simp
          omega
        simp only [layout_children]
        exact mono_append (IHnode c ctx y style hc hw hf)
          (IHchildren rest ctx _ style hrest hw hf)
    · intro tg cs ctx y style c hsz hw hf
      cases cs with
      | nil =>
        simp only [layout_list_go]
        exact mono_nil le_rfl
      | cons child rest =>
        have hrest : sizeOf rest < n := by
          have h1 : sizeOf rest < sizeOf (child :: rest) := by simp
          omega
        cases child with
        | text content =>
          simp only [layout_list_go]
          exact IHlist tg rest ctx y style c hrest hw hf
        | element tag attrs li_children =>
          have hli : sizeOf li_children < n := by
            have h1 : sizeOf li_children <
                sizeOf ((Node.element tag attrs li_children) :: rest) := by
              simp only [List.cons.sizeOf_spec, Node.element.sizeOf_spec]
              omega
            omega
          simp only [layout_list_go]
          split
          · -- the li branch
            have hf14 : (0 : ℚ) ≤ line_height style.font_size := by
              dsimp only [line_height]
              nlinarith [mul_nonneg hf (by norm_num : (0 : ℚ) ≤ 7 / 5)]
            have h1 : Mono y (layout_children li_children ctx y style) :=
              IHchildren li_children ctx y style hli hw hf
            have hy2 : (layout_children li_children ctx y style).2 ≤
                max (layout_children li_children ctx y style).2
                  (y + line_height style.font_size) + 4 := by
              have := le_max_left (layout_children li_children ctx y style).2
                (y + line_height style.font_size)
              linarith
            have hmarker : Mono y
                ([{ x := ctx.pad + style.indent - MARKER_INDENT, y := y,
                    width := MARKER_INDENT, height := line_height style.font_size,
                    cmd := PaintCmd.text
                      (if tg = "ol" then toString c ++ "." else bullet_symbol (depthOf style.indent))
                      style.font_size style.bold style.italic 0x555555 false }], y) :=
              mono_single le_rfl le_rfl
            have hcontent : Mono y ((layout_children li_children ctx y style).1,
                max (layout_children li_children ctx y style).2
                  (y + line_height style.font_size) + 4) :=
              mono_weaken le_rfl h1 hy2
            have htail : Mono
                (max (layout_children li_children ctx y style).2
                  (y + line_height style.font_size) + 4)
                (layout_list_go tg rest ctx
                  (max (layout_children li_children ctx y style).2
                    (y + line_height style.font_size) + 4) style (c + 1)) :=
              IHlist tg rest ctx _ style (c + 1) hrest hw hf
            have hall := mono_append (mono_append hmarker hcontent) htail
            simpa [List.append_assoc] using hall
          · exact IHlist tg rest ctx y style c hrest hw hf

/-- C3 (amended): for every node, every context with nonnegative content
width, every inherited style with nonnegative font size and every starting
cursor `y`, `layout_node` returns a cursor that is at least `y`; and for
every forest, image oracle and viewport width of at least twice the page
padding, the y coordinates of the boxes emitted by `layout`, in emission
order and filtered to exclude list-marker boxes and full-bleed background
boxes, are non-decreasing. -/
theorem monotonic_cursor :
    (∀ (node : Node) (ctx : LCtx) (y : ℚ) (style : Style),
        0 ≤ ctx.width → 0 ≤ style.font_size →
        y ≤ (layout_node node ctx y style).2) ∧
    (∀ (nodes : List Node) (vw : ℚ) (images : String → Option Img),
        2 * PAGE_PAD ≤ vw →
        List.Chain' (· ≤ ·)
          (((layout nodes vw images).filter
              (fun b => !isMarkerBox b && !isFillRectBox b)).map LayoutBox.y)) := by
  constructor
  · intro node ctx y style hw hf
    exact ((mono_master (sizeOf node)).1 node ctx y style le_rfl hw hf).1
  · intro nodes vw images hvw
    have hw : (0 : ℚ) ≤ vw - PAGE_PAD * 2 := by
      simp only [PAGE_PAD] at hvw ⊢
      linarith
    have hm := (mono_master (sizeOf nodes)).2.1 nodes
      ⟨PAGE_PAD, vw - PAGE_PAD * 2, vw, images⟩ PAGE_PAD defaultStyle le_rfl hw
      (by norm_num [defaultStyle])
    have hchain := hm.2.2
    have hsub : (((layout nodes vw images).filter
          (fun b => !isMarkerBox b && !isFillRectBox b)).map LayoutBox.y).Sublist
        ((layout nodes vw images).map LayoutBox.y) :=
      List.Sublist.map LayoutBox.y (List.filter_sublist _)
    exact List.Chain'.sublist hchain hsub
  
/-- C3 witness: the amended theorem applied at a concrete node, context,
forest and viewport width. -/
theorem monotonic_cursor_witness :
    ((0 : ℚ) ≤ (768 : ℚ) ∧ (0 : ℚ) ≤ defaultStyle.font_size ∧
      (16 : ℚ) ≤ (layout_node (Node.text "A") ⟨16, 768, 800, noImg⟩ 16 defaultStyle).2) ∧
    (2 * PAGE_PAD ≤ (800 : ℚ) ∧
      List.Chain' (· ≤ ·)
        (((layout [Node.text "A"] 800 noImg).filter
            (fun b => !isMarkerBox b && !isFillRectBox b)).map LayoutBox.y)) := by
  constructor
  · refine ⟨by norm_num, by norm_num [defaultStyle], ?_⟩
    exact monotonic_cursor.1 (Node.text "A") ⟨16, 768, 800, noImg⟩ 16 defaultStyle
      (by norm_num) (by norm_num [defaultStyle])
  · refine ⟨by norm_num [PAGE_PAD], ?_⟩
    exact monotonic_cursor.2 [Node.text "A"] 800 noImg (by norm_num [PAGE_PAD])

/-- C3 counterexample: the claim quantifies over every inherited style, but
with a negative inherited font size (`line_height` becomes negative) a
nonempty text node moves the cursor upward, so `layout_node` can return a
cursor strictly below its starting cursor. -/
theorem monotonic_cursor_counterexample :
    (layout_node (Node.text "A") ⟨16, 768, 800, noImg⟩ 0
        { defaultStyle with font_size := -16 }).2 < 0 := by
  simp [layout_node, rustTrim, line_height, defaultStyle]

/-! ### Per-box x-coordinate / paint-command invariant -/

/-- The shape invariant of every box the layout engine can emit: text
content boxes sit at `pad + ind` with width `width - ind` for some indent
`ind`; marker boxes (muted color `0x555555`) sit one gutter to the left of
`pad + ind`; `HLine` and `Image` boxes sit at `pad` exactly; `FillRect`
boxes are never emitted. -/
def BoxOk (ctx : LCtx) (b : LayoutBox) : Prop :=
  match b.cmd with
  | PaintCmd.text _ _ _ _ col _ =>
    (∃ ind, b.x = ctx.pad + ind ∧ b.width = ctx.width - ind) ∨
    (col = 0x555555 ∧ ∃ ind, b.x = ctx.pad + ind - MARKER_INDENT ∧ b.width = MARKER_INDENT)
  | PaintCmd.fillRect _ => False
  | PaintCmd.hline _ => b.x = ctx.pad
  | PaintCmd.image _ _ _ => b.x = ctx.pad

theorem box_img_ok (attrs : List (String × String)) (ctx : LCtx) (y : ℚ) :
    ∀ b ∈ (layout_img attrs ctx y).1, BoxOk ctx b := by
  unfold layout_img
  cases List.lookup "src" attrs with
  | none => simp
  | some src =>
    dsimp only
    cases ctx.images src with
    | none => simp
    | some img =>
      intro b hb
      have hb' : b = { x := ctx.pad, y := y,
                       width := min ctx.width (img.width : ℚ),
                       height := (img.height : ℚ) *
                         (min ctx.width (img.width : ℚ) / (img.width : ℚ)),
                       cmd := PaintCmd.image img.data img.width img.height } := by
        simpa using hb
      subst hb'
      simp [BoxOk]

theorem box_master (n : ℕ) :
    (∀ (node : Node) (ctx : LCtx) (y : ℚ) (style : Style), sizeOf node ≤ n →
      ∀ b ∈ (layout_node node ctx y style).1, BoxOk ctx b) ∧
    (∀ (cs : List Node) (ctx : LCtx) (y : ℚ) (style : Style), sizeOf cs ≤ n →
      ∀ b ∈ (layout_children cs ctx y style).1, BoxOk ctx b) ∧
    (∀ (tg : String) (cs : List Node) (ctx : LCtx) (y : ℚ) (style : Style) (c : ℕ),
      sizeOf cs ≤ n → ∀ b ∈ (layout_list_go tg cs ctx y style c).1, BoxOk ctx b) := by
  induction n using Nat.strong_induction_on with
  | _ n IH =>
    have IHnode : ∀ (node : Node) (ctx : LCtx) (y : ℚ) (style : Style), sizeOf node < n →
        ∀ b ∈ (layout_node node ctx y style).1, BoxOk ctx b :=
      fun node ctx y style h => (IH (sizeOf node) h).1 node ctx y style le_rfl
    have IHchildren : ∀ (cs : List Node) (ctx : LCtx) (y : ℚ) (style : Style),
        sizeOf cs < n → ∀ b ∈ (layout_children cs ctx y style).1, BoxOk ctx b :=
      fun cs ctx y style h => (IH (sizeOf cs) h).2.1 cs ctx y style le_rfl
    have IHlist : ∀ (tg : String) (cs : List Node) (ctx : LCtx) (y : ℚ) (style : Style)
        (c : ℕ), sizeOf cs < n →
        ∀ b ∈ (layout_list_go tg cs ctx y style c).1, BoxOk ctx b :=
      fun tg cs ctx y style c h => (IH (sizeOf cs) h).2.2 tg cs ctx y style c le_rfl
    refine ⟨?_, ?_, ?_⟩
    · intro node ctx y style hsz
      cases node with
      | text content =>
        simp only [layout_node]
        split
        · simp
        · intro b hb
          have hb' : b = { x := ctx.pad + style.indent, y := y,
                           width := ctx.width - style.indent,
                           height := line_height style.font_size,
                           cmd := PaintCmd.text (rustTrim content) style.font_size
                             style.bold style.italic style.color style.underline } := by
            simpa using hb
          subst hb'
          exact Or.inl ⟨style.indent, rfl, rfl⟩
      | element tag attrs children =>
        have hlt : sizeOf children < n := by
          have h1 : sizeOf children < sizeOf (Node.element tag attrs children) := by
            simp only [Node.element.sizeOf_spec]; omega
          omega
        simp only [layout_node]
        unfold layout_element
        split
        · simp
        · simp
        · simp
        · simp
        · simp
        · simp
        · exact IHchildren children ctx y style hlt
        · exact IHchildren children ctx y style hlt
        · exact IHchildren children ctx y style hlt
        · exact IHchildren children ctx y style hlt
        · exact IHchildren children ctx y style hlt
        · exact IHchildren children ctx y style hlt
        · exact IHchildren children ctx y style hlt
        · exact IHchildren children ctx y style hlt
        · unfold heading
          dsimp only [List.nil_append]
          exact IHchildren children ctx _ _ hlt
        · unfold heading
          dsimp only [List.nil_append]
          exact IHchildren children ctx _ _ hlt
        · unfold heading
          dsimp only [List.nil_append]
          exact IHchildren children ctx _ _ hlt
        · unfold block
          exact IHchildren children ctx _ _ hlt
        · unfold layout_list
          dsimp only
          exact IHlist _ children ctx _ _ 1 hlt
        · unfold layout_list
          dsimp only
          exact IHlist _ children ctx _ _ 1 hlt
        · exact IHchildren children ctx y _ hlt
        · exact IHchildren children ctx y _ hlt
        · exact IHchildren children ctx y _ hlt
        · exact IHchildren children ctx y style hlt
        · simp
        · intro b hb
          have hb' : b = { x := ctx.pad, y := y + 8, width := ctx.width, height := 1,
                           cmd := PaintCmd.hline 0xAAAAAA } := by
            simpa using hb
          subst hb'
          simp [BoxOk]
        · exact box_img_ok attrs ctx y
        · exact IHchildren children ctx y style hlt
    · intro cs ctx y style hsz
      cases cs with
      | nil => simp [layout_children]
      | cons c rest =>
        have hc : sizeOf c < n := by
          have h1 : sizeOf c < sizeOf (c :: rest) := by simp; omega
          omega
        have hrest : sizeOf rest < n := by
          have h1 : sizeOf rest < sizeOf (c :: rest) := by simp
          omega
        simp only [layout_children]
        intro b hb
        rcases List.mem_append.1 hb with h | h
        · exact IHnode c ctx y style hc b h
        · exact IHchildren rest ctx _ style hrest b h
    · intro tg cs ctx y style c hsz
      cases cs with
      | nil => simp [layout_list_go]
      | cons child rest =>
        have hrest : sizeOf rest < n := by
          have h1 : sizeOf rest < sizeOf (child :: rest) := by simp
          omega
        cases child with
        | text content =>
          simp only [layout_list_go]
          exact IHlist tg rest ctx y style c hrest
        | element tag attrs li_children =>
          have hli : sizeOf li_children < n := by
            have h1 : sizeOf li_children <
                sizeOf ((Node.element tag attrs li_children) :: rest) := by
              simp only [List.cons.sizeOf_spec, Node.element.sizeOf_spec]
              omega
            omega
          simp only [layout_list_go]
          split
          · intro b hb
            rcases List.mem_cons.1 hb with h | h
            · subst h
              exact Or.inr ⟨rfl, style.indent, rfl, rfl⟩
            · rcases List.mem_append.1 h with h2 | h2
              · exact IHchildren li_children ctx y style hli b h2
              · exact IHlist tg rest ctx _ style (c + 1) hrest b h2
          · exact IHlist tg rest ctx y style c hrest

/-- C10: the heading helper is always invoked with `bg = none` and
`border = none` (h1/h2/h3 pass no background and no border), and no other
code path pushes a `FillRect`, so `layout` never emits a `FillRect` box,
for every forest, viewport width and image oracle. -/
theorem layout_no_fillrect :
    (∀ (nodes : List Node) (vw : ℚ) (images : String → Option Img),
      (layout nodes vw images).filter isFillRectBox = []) ∧
    (∀ (attrs : List (String × String)) (children : List Node) (ctx : LCtx)
        (y : ℚ) (style : Style),
      layout_element "h1" attrs children ctx y style =
        heading children ctx y style 32 24 16 none none ∧
      layout_element "h2" attrs children ctx y style =
        heading children ctx y style 24 20 12 none none ∧
      layout_element "h3" attrs children ctx y style =
        heading children ctx y style 20 16 8 none none) := by
  constructor
  · intro nodes vw images
    rw [List.filter_eq_nil_iff]
    intro b hb
    have h := (box_master (sizeOf nodes)).2.1 nodes
      ⟨PAGE_PAD, vw - PAGE_PAD * 2, vw, images⟩ PAGE_PAD defaultStyle le_rfl b hb
    unfold BoxOk at h
    cases hcmd : b.cmd with
    | text c fs bo it col un => simp [isFillRectBox, hcmd]
    | fillRect col => rw [hcmd] at h; simp at h
    | hline col => simp [isFillRectBox, hcmd]
    | image d w hh => simp [isFillRectBox, hcmd]
  · intro attrs children ctx y style
    refine ⟨?_, ?_, ?_⟩ <;> simp only [layout_element]

/-- C5 (amended): every box emitted by `layout` is either a text content box
at `x = pad + ind` spanning `width - ind` for the indent `ind` in effect, a
list-marker text box at `x = pad + ind - MARKER_INDENT` of gutter width with
the muted marker color, an `HLine` box at `x = pad` (hr rules ignore the
indent), or an `Image` box at `x = pad` (images ignore the indent);
full-bleed backgrounds are never emitted. -/
theorem box_x_coordinates (nodes : List Node) (vw : ℚ)
    (images : String → Option Img) (b : LayoutBox)
    (hb : b ∈ layout nodes vw images) :
    (∃ content fs bo it col un, b.cmd = PaintCmd.text content fs bo it col un ∧
      ((∃ ind, b.x = PAGE_PAD + ind ∧ b.width = (vw - PAGE_PAD * 2) - ind) ∨
       (col = 0x555555 ∧
         ∃ ind, b.x = PAGE_PAD + ind - MARKER_INDENT ∧ b.width = MARKER_INDENT))) ∨
    ((∃ col, b.cmd = PaintCmd.hline col) ∧ b.x = PAGE_PAD) ∨
    ((∃ d w h, b.cmd = PaintCmd.image d w h) ∧ b.x = PAGE_PAD) := by
  have h := (box_master (sizeOf nodes)).2.1 nodes
    ⟨PAGE_PAD, vw - PAGE_PAD * 2, vw, images⟩ PAGE_PAD defaultStyle le_rfl b hb
  unfold BoxOk at h
  cases hcmd : b.cmd with
  | text c fs bo it col un =>
    rw [hcmd] at h
    rcases h with ⟨ind, h1, h2⟩ | ⟨hcol, ind, h1, h2⟩
    · exact Or.inl ⟨c, fs, bo, it, col, un, rfl, Or.inl ⟨ind, h1, h2⟩⟩
    · exact Or.inl ⟨c, fs, bo, it, col, un, rfl, Or.inr ⟨hcol, ind, h1, h2⟩⟩
  | fillRect col => rw [hcmd] at h; simp at h
  | hline col =>
    rw [hcmd] at h
    exact Or.inr (Or.inl ⟨⟨col, rfl⟩, h⟩)
  | image d w hh =>
    rw [hcmd] at h
    exact Or.inr (Or.inr ⟨⟨d, w, hh, rfl⟩, h⟩)

/-- A one-node forest emits exactly the boxes of that node. -/
theorem layout_children_singleton_boxes (n : Node) (ctx : LCtx) (y : ℚ)
    (style : Style) :
    (layout_children [n] ctx y style).1 = (layout_node n ctx y style).1 := by
  simp only [layout_children, List.append_nil]

/-- The two boxes of a `ul` holding one `li` holding one `hr`, at any
context, cursor and style: the gutter marker, then the rule at `x =
ctx.pad` (not `pad` plus the effective indent). -/
theorem layout_ul_li_hr_boxes (ctx : LCtx) (y : ℚ) (style : Style) :
    (layout_node (Node.element "ul" []
        [Node.element "li" [] [Node.element "hr" [] []]]) ctx y style).1 =
      [{ x := ctx.pad + (style.indent + MARKER_INDENT) - MARKER_INDENT, y := y + 8,
         width := MARKER_INDENT, height := line_height style.font_size,
         cmd := PaintCmd.text (bullet_symbol (depthOf (style.indent + MARKER_INDENT)))
           style.font_size style.bold style.italic 0x555555 false },
       { x := ctx.pad, y := y + 8 + 8, width := ctx.width, height := 1,
         cmd := PaintCmd.hline 0xAAAAAA }] := by
  simp only [layout_node, layout_element, layout_list, layout_list_go,
    layout_children, if_true]
  rw [if_neg (show ¬("ul" = "ol") by decide)]
  simp only [List.append_nil]

/-- C5 counterexample: an `hr` nested inside a list item is laid out with
effective indent 24 (one gutter), so the claim demands `x = pad + indent
= 40`, but the code emits the `HLine` box at `x = ctx.pad = 16`.  The first
box is the list marker, the second the hr rule. -/
theorem box_x_counterexample :
    (layout [Node.element "ul" [] [Node.element "li" [] [Node.element "hr" [] []]]]
        800 noImg).map (fun b => (b.x, b.cmd)) =
      [((16 : ℚ), PaintCmd.text "•" 16 false false 0x555555 false),
       ((16 : ℚ), PaintCmd.hline 0xAAAAAA)] ∧
    (16 : ℚ) ≠ 16 + 24 := by
  constructor
  · have d1 : (⌊(1 : ℚ) + 2⁻¹⌋ : ℤ) = 1 := by
      rw [Int.floor_eq_iff]
      norm_num
    have e1 : depthOf (defaultStyle.indent + MARKER_INDENT) = 1 := by
      simp only [depthOf, defaultStyle, MARKER_INDENT, roundHalfAway]
      rw [if_pos (by norm_num)]
      have h : ((0 : ℚ) + 24) / 24 + 1 / 2 = 1 + 2⁻¹ := by norm_num
      rw [h, d1]
      rfl
    have h0 : layout [Node.element "ul" []
        [Node.element "li" [] [Node.element "hr" [] []]]] 800 noImg =
        (layout_children [Node.element "ul" []
          [Node.element "li" [] [Node.element "hr" [] []]]]
          ⟨PAGE_PAD, 800 - PAGE_PAD * 2, 800, noImg⟩ PAGE_PAD defaultStyle).1 := rfl
    rw [h0, layout_children_singleton_boxes, layout_ul_li_hr_boxes, e1]
    simp only [List.map_cons, List.map_nil]
    norm_num [PAGE_PAD, MARKER_INDENT, defaultStyle, bullet_symbol]
  · norm_num

/-- The box emitted for a top-level `hr` at viewport width 800. -/
def hrWitnessBox : LayoutBox :=
  { x := 16, y := 24, width := 768, height := 1, cmd := PaintCmd.hline 0xAAAAAA }

/-- C5 witness: the amended theorem applied to the single box emitted for a
top-level `hr`. -/
theorem box_x_coordinates_witness :
    hrWitnessBox ∈ layout [Node.element "hr" [] []] 800 noImg ∧
    ((∃ content fs bo it col un,
        hrWitnessBox.cmd = PaintCmd.text content fs bo it col un ∧
        ((∃ ind, hrWitnessBox.x = PAGE_PAD + ind ∧
            hrWitnessBox.width = (800 - PAGE_PAD * 2) - ind) ∨
         (col = 0x555555 ∧
           ∃ ind, hrWitnessBox.x = PAGE_PAD + ind - MARKER_INDENT ∧
             hrWitnessBox.width = MARKER_INDENT))) ∨
     ((∃ col, hrWitnessBox.cmd = PaintCmd.hline col) ∧ hrWitnessBox.x = PAGE_PAD) ∨
     ((∃ d w h, hrWitnessBox.cmd = PaintCmd.image d w h) ∧
        hrWitnessBox.x = PAGE_PAD)) := by
  have heval : layout [Node.element "hr" [] []] 800 noImg = [hrWitnessBox] := by
    simp [layout, layout_children, layout_node, layout_element, PAGE_PAD, hrWitnessBox]
    norm_num
  have hmem : hrWitnessBox ∈ layout [Node.element "hr" [] []] 800 noImg := by
    rw [heval]
    exact List.mem_singleton_self _
  exact ⟨hmem, box_x_coordinates [Node.element "hr" [] []] 800 noImg hrWitnessBox hmem⟩

/-- C9: scaling of decoded images.  If the intrinsic pixel width fits in the
content width the image is displayed at its intrinsic size (never upscaled);
otherwise both dimensions are scaled by the uniform factor
`content_width / intrinsic_width`, so the displayed width equals the content
width. -/
theorem image_never_upscaled (attrs : List (String × String)) (ctx : LCtx)
    (y : ℚ) (src : String) (img : Img)
    (hsrc : List.lookup "src" attrs = some src)
    (himg : ctx.images src = some img) (hpos : 0 < img.width) :
    ((img.width : ℚ) ≤ ctx.width →
      layout_img attrs ctx y =
        ([{ x := ctx.pad, y := y, width := (img.width : ℚ),
            height := (img.height : ℚ),
            cmd := PaintCmd.image img.data img.width img.height }],
         y + (img.height : ℚ) + 8)) ∧
    (ctx.width < (img.width : ℚ) →
      (layout_img attrs ctx y).1 =
        [{ x := ctx.pad, y := y, width := ctx.width,
           height := (img.height : ℚ) * (ctx.width / (img.width : ℚ)),
           cmd := PaintCmd.image img.data img.width img.height }] ∧
      (img.width : ℚ) * (ctx.width / (img.width : ℚ)) = ctx.width) := by
  have hw0 : (img.width : ℚ) ≠ 0 := by
    exact_mod_cast Nat.pos_iff_ne_zero.1 hpos
  unfold layout_img
  rw [hsrc]
  dsimp only
  rw [himg]
  dsimp only
  constructor
  · intro hle
    rw [min_eq_right hle, div_self hw0]
    simp
  · intro hlt
    rw [min_eq_left (le_of_lt hlt)]
    refine ⟨rfl, ?_⟩
    rw [mul_comm, div_mul_cancel₀ ctx.width hw0]

/-- A one-image oracle for the C9 witness: `i.png` decodes to a 10×5 image. -/
def oneImg : String → Option Img :=
  fun s => if s = "i.png" then some ⟨[0, 0, 0, 255], 10, 5⟩ else none

/-- C9 witness: the theorem applied to a concrete 10×5 image in a 768-wide
content area (the narrow case applies: the box keeps the intrinsic size). -/
theorem image_never_upscaled_witness :
    (List.lookup "src" [("src", "i.png")] = some "i.png" ∧
      oneImg "i.png" = some ⟨[0, 0, 0, 255], 10, 5⟩ ∧ 0 < (10 : ℕ) ∧
      ((10 : ℕ) : ℚ) ≤ (768 : ℚ)) ∧
    layout_img [("src", "i.png")] ⟨16, 768, 800, oneImg⟩ 0 =
      ([{ x := 16, y := 0, width := ((10 : ℕ) : ℚ), height := ((5 : ℕ) : ℚ),
          cmd := PaintCmd.image [0, 0, 0, 255] 10 5 }],
       0 + ((5 : ℕ) : ℚ) + 8) := by
  refine ⟨⟨by rfl, by rfl, by norm_num, by norm_num⟩, ?_⟩
  exact (image_never_upscaled [("src", "i.png")] ⟨16, 768, 800, oneImg⟩ 0 "i.png"
    ⟨[0, 0, 0, 255], 10, 5⟩ (by rfl) (by rfl) (by norm_num)).1 (by norm_num)

/-! ### List markers -/

/-- The contents of the list-marker boxes (muted color `0x555555` text
boxes), in emission order. -/
def markerContents : List LayoutBox → List String
  | [] => []
  | b :: rest =>
    match b.cmd with
    | PaintCmd.text content _ _ _ col _ =>
      if col = 0x555555 then content :: markerContents rest else markerContents rest
    | _ => markerContents rest

theorem markerContents_append (a b : List LayoutBox) :
    markerContents (a ++ b) = markerContents a ++ markerContents b := by
  induction a with
  | nil => simp [markerContents]
  | cons x rest ih =>
    simp only [List.cons_append, markerContents]
    cases x.cmd with
    | text content fs bo it col un =>
      by_cases h : col = 0x555555 <;> simp [h, ih]
    | fillRect col => exact ih
    | hline col => exact ih
    | image d w hh => exact ih

theorem markerContents_text_children (kids : List Node) (ctx : LCtx) (y : ℚ)
    (style : Style) (hcol : style.color ≠ 0x555555)
    (hkids : ∀ k ∈ kids, ∃ s, k = Node.text s) :
    markerContents (layout_children kids ctx y style).1 = [] := by
  induction kids generalizing y with
  | nil => simp [layout_children, markerContents]
  | cons k rest ih =>
    obtain ⟨s, rfl⟩ := hkids k (List.mem_cons_self k rest)
    have h1 : markerContents (layout_node (Node.text s) ctx y style).1 = [] := by
      simp only [layout_node]
      split
      · simp [markerContents]
      · simp [markerContents, hcol]
    have h2 : ∀ k ∈ rest, ∃ s, k = Node.text s :=
      fun k hk => hkids k (List.mem_cons_of_mem _ hk)
    simp only [layout_children, markerContents_append, h1, List.nil_append]
    exact ih _ h2

/-- The markers of an `ol` whose children are all `li` elements containing
only text: starting the counter at `c`, the marker texts are
`"c."`, `"c+1."`, ... in emission order. -/
theorem ol_marker_contents (cs : List Node) (ctx : LCtx) (y : ℚ) (style : Style)
    (c : ℕ) (hcol : style.color ≠ 0x555555)
    (hcs : ∀ node ∈ cs, ∃ attrs kids, node = Node.element "li" attrs kids ∧
      ∀ k ∈ kids, ∃ s, k = Node.text s) :
    markerContents (layout_list_go "ol" cs ctx y style c).1 =
      (List.range' c cs.length).map (fun k => toString k ++ ".") := by
  induction cs generalizing y c with
  | nil => simp [layout_list_go, markerContents]
  | cons child rest ih =>
    obtain ⟨attrs, kids, rfl, hkids⟩ := hcs _ (List.mem_cons_self _ rest)
    have hrest : ∀ node ∈ rest, ∃ attrs kids, node = Node.element "li" attrs kids ∧
        ∀ k ∈ kids, ∃ s, k = Node.text s :=
      fun node hn => hcs node (List.mem_cons_of_mem _ hn)
    have hk : markerContents (layout_children kids ctx y style).1 = [] :=
      markerContents_text_children kids ctx y style hcol hkids
    simp only [layout_list_go, if_pos rfl, List.length_cons, List.range'_succ,
      List.map_cons]
    simp only [markerContents, List.append_eq, markerContents_append, hk,
      List.nil_append, if_true]
    rw [ih _ _ hrest]

/-- The DOM forest of `<ol><li>x</li><li>y</li></ol>`. -/
def olExample : List Node :=
  [Node.element "ol" []
    [Node.element "li" [] [Node.text "x"], Node.element "li" [] [Node.text "y"]]]

theorem markerContents_text_node (s : String) (ctx : LCtx) (y : ℚ) (style : Style)
    (hcol : style.color ≠ 0x555555) :
    markerContents (layout_node (Node.text s) ctx y style).1 = [] := by
  simp only [layout_node]
  split
  · simp [markerContents]
  · simp [markerContents, hcol]

/-- The markers of a one-node forest are the markers of that node. -/
theorem markerContents_children_singleton (n : Node) (ctx : LCtx) (y : ℚ)
    (style : Style) :
    markerContents (layout_children [n] ctx y style).1 =
      markerContents (layout_node n ctx y style).1 := by
  simp only [layout_children, List.append_nil]

/-- The markers of an `ol` element over `li`-with-text children are
`"1."`, `"2."`, ... regardless of context, cursor and style. -/
theorem markerContents_ol_node (attrs : List (String × String)) (cs : List Node)
    (ctx : LCtx) (y : ℚ) (style : Style) (hcol : style.color ≠ 0x555555)
    (hcs : ∀ node ∈ cs, ∃ attrs2 kids, node = Node.element "li" attrs2 kids ∧
      ∀ k ∈ kids, ∃ s, k = Node.text s) :
    markerContents (layout_node (Node.element "ol" attrs cs) ctx y style).1 =
      (List.range' 1 cs.length).map (fun k => toString k ++ ".") := by
  simp only [layout_node, layout_element, layout_list]
  exact ol_marker_contents cs ctx (y + 8)
    { style with indent := style.indent + MARKER_INDENT } 1 hcol hcs

/-- The single marker of a `ul` whose only child is an `li` containing one
text node. -/
theorem ul_single_li_markers (attrs : List (String × String)) (s : String)
    (ctx : LCtx) (y : ℚ) (style : Style) (c : ℕ) (hcol : style.color ≠ 0x555555) :
    markerContents (layout_list_go "ul" [Node.element "li" attrs [Node.text s]]
        ctx y style c).1 = [bullet_symbol (depthOf style.indent)] := by
  have hk : markerContents (layout_children [Node.text s] ctx y style).1 = [] :=
    markerContents_text_children [Node.text s] ctx y style hcol
      (fun k hk => ⟨s, by simpa using hk⟩)
  simp only [layout_list_go, if_pos rfl, markerContents, markerContents_append,
    List.append_eq, List.nil_append, List.append_nil, if_true, if_false, hk]
  rw [if_neg (show ¬("ul" = "ol") by decide)]

/-- The single marker of a nested `ul [li [text]]` element laid out with an
outer list style: its depth is one gutter deeper. -/
theorem ulNested_inner_markers (ctx : LCtx) (style : Style)
    (hcol : style.color ≠ 0x555555) (y : ℚ) :
    markerContents (layout_node
        (Node.element "ul" [] [Node.element "li" [] [Node.text "y"]]) ctx y style).1 =
      [bullet_symbol (depthOf (style.indent + MARKER_INDENT))] := by
  simp only [layout_node, layout_element, layout_list]
  rw [ul_single_li_markers [] "y" ctx (y + 8)
    { style with indent := style.indent + MARKER_INDENT } 1 hcol]

/-- The two markers of the item loop on `[li [text "x", ul [li [text "y"]]]]`:
the outer bullet at the current depth, then the inner bullet one gutter
deeper. -/
theorem ulNested_go_markers (ctx : LCtx) (y : ℚ) (style : Style) (c : ℕ)
    (hcol : style.color ≠ 0x555555) :
    markerContents (layout_list_go "ul"
        [Node.element "li" []
          [Node.text "x",
           Node.element "ul" [] [Node.element "li" [] [Node.text "y"]]]]
        ctx y style c).1 =
      [bullet_symbol (depthOf style.indent),
       bullet_symbol (depthOf (style.indent + MARKER_INDENT))] := by
  simp only [layout_list_go, layout_children, layout_node, layout_element,
    layout_list, if_true, List.append_nil]
  rw [if_neg (show ¬("ul" = "ol") by decide), if_neg (show ¬("ul" = "ol") by decide)]
  simp only [markerContents, if_true]
  rw [if_neg hcol, if_neg hcol]

/-- The two markers of a `ul` element holding the nested `li`: the outer
bullet one gutter deeper than the incoming style, the inner bullet two. -/
theorem ulNested_node_markers (ctx : LCtx) (y : ℚ) (style : Style)
    (hcol : style.color ≠ 0x555555) :
    markerContents (layout_node
        (Node.element "ul" []
          [Node.element "li" []
            [Node.text "x",
             Node.element "ul" [] [Node.element "li" [] [Node.text "y"]]]])
        ctx y style).1 =
      [bullet_symbol (depthOf (style.indent + MARKER_INDENT)),
       bullet_symbol (depthOf (style.indent + MARKER_INDENT + MARKER_INDENT))] := by
  simp only [layout_node, layout_element, layout_list]
  exact ulNested_go_markers ctx (y + 8)
    { style with indent := style.indent + MARKER_INDENT } 1 hcol

/-- C7: within one list invocation the counter starts at 1 and increments
per `li`; for `ol` the k-th `li` gets marker text `"k."`; and the concrete
pipeline `<ol><li>x</li><li>y</li></ol>` emits marker texts `"1."` then
`"2."` in emission order. -/
theorem ol_numbering :
    (∀ (cs : List Node) (ctx : LCtx) (y : ℚ) (style : Style),
      style.color ≠ 0x555555 →
      (∀ node ∈ cs, ∃ attrs kids, node = Node.element "li" attrs kids ∧
        ∀ k ∈ kids, ∃ s, k = Node.text s) →
      markerContents (layout_list "ol" cs ctx y style).1 =
        (List.range' 1 cs.length).map (fun k => toString k ++ ".")) ∧
    build_tree (tokenize "<ol><li>x</li><li>y</li></ol>") = some olExample ∧
    markerContents (layout olExample 800 noImg) = ["1.", "2."] := by
  refine ⟨?_, by rfl, ?_⟩
  · intro cs ctx y style hcol hcs
    unfold layout_list
    exact ol_marker_contents cs ctx y style 1 hcol hcs
  · have hcs : ∀ node ∈ [Node.element "li" [] [Node.text "x"],
        Node.element "li" [] [Node.text "y"]],
        ∃ attrs kids, node = Node.element "li" attrs kids ∧
          ∀ k ∈ kids, ∃ s, k = Node.text s := by
      intro node hn
      rcases List.mem_cons.1 hn with h | h
      · subst h
        refine ⟨[], [Node.text "x"], rfl, ?_⟩
        intro k hk
        rw [List.mem_singleton] at hk
        exact ⟨"x", hk⟩
      · rw [List.mem_singleton] at h
        subst h
        refine ⟨[], [Node.text "y"], rfl, ?_⟩
        intro k hk
        rw [List.mem_singleton] at hk
        exact ⟨"y", hk⟩
    have h0 : layout olExample 800 noImg =
        (layout_children olExample ⟨PAGE_PAD, 800 - PAGE_PAD * 2, 800, noImg⟩
          PAGE_PAD defaultStyle).1 := rfl
    rw [h0, show olExample = [Node.element "ol" []
        [Node.element "li" [] [Node.text "x"], Node.element "li" [] [Node.text "y"]]]
      from rfl]
    rw [markerContents_children_singleton]
    rw [markerContents_ol_node [] _ _ _ _ (by decide) hcs]
    decide

/-- C7 witness: the general numbering statement applied to a concrete
two-item `ol`. -/
theorem ol_numbering_witness :
    defaultStyle.color ≠ 0x555555 ∧
    markerContents (layout_list "ol"
        [Node.element "li" [] [Node.text "x"], Node.element "li" [] [Node.text "y"]]
        ⟨16, 768, 800, noImg⟩ 0 defaultStyle).1 =
      (List.range' 1 2).map (fun k => toString k ++ ".") := by
  have hcs : ∀ node ∈ [Node.element "li" [] [Node.text "x"],
      Node.element "li" [] [Node.text "y"]],
      ∃ attrs kids, node = Node.element "li" attrs kids ∧
        ∀ k ∈ kids, ∃ s, k = Node.text s := by
    intro node hn
    rcases List.mem_cons.1 hn with h | h
    · subst h
      refine ⟨[], [Node.text "x"], rfl, ?_⟩
      intro k hk
      rw [List.mem_singleton] at hk
      exact ⟨"x", hk⟩
    · rw [List.mem_singleton] at h
      subst h
      refine ⟨[], [Node.text "y"], rfl, ?_⟩
      intro k hk
      rw [List.mem_singleton] at hk
      exact ⟨"y", hk⟩
  exact ⟨by decide,
    ol_numbering.1 [Node.element "li" [] [Node.text "x"],
      Node.element "li" [] [Node.text "y"]] ⟨16, 768, 800, noImg⟩ 0 defaultStyle
      (by decide) hcs⟩

/-- The DOM forest of a `ul` nested directly inside the `li` of another
`ul`. -/
def ulNested : List Node :=
  [Node.element "ul" []
    [Node.element "li" []
      [Node.text "x",
       Node.element "ul" [] [Node.element "li" [] [Node.text "y"]]]]]

/-- C8: the `ul` marker glyph is selected by the nesting depth
`round(style.indent / MARKER_INDENT)`; tiers 1, 2 and 3-or-more get three
pairwise distinct bullets, so a `ul` nested inside another `ul` (depth 2)
paints a different glyph than a top-level `ul` (depth 1). -/
theorem ul_marker_tiering :
    markerContents (layout ulNested 800 noImg) = [bullet_symbol 1, bullet_symbol 2] ∧
    bullet_symbol 1 = "•" ∧ bullet_symbol 2 = "◦" ∧ bullet_symbol 3 = "▪" ∧
    bullet_symbol 1 ≠ bullet_symbol 2 ∧ bullet_symbol 2 ≠ bullet_symbol 3 ∧
    bullet_symbol 1 ≠ bullet_symbol 3 ∧ bullet_symbol 7 = bullet_symbol 3 ∧
    depthOf MARKER_INDENT = 1 ∧ depthOf (MARKER_INDENT + MARKER_INDENT) = 2 := by
  have d1 : (⌊(1 : ℚ) + 2⁻¹⌋ : ℤ) = 1 := by
    rw [Int.floor_eq_iff]
    norm_num
  have d2 : (⌊(2 : ℚ) + 2⁻¹⌋ : ℤ) = 2 := by
    rw [Int.floor_eq_iff]
    norm_num
  have e1 : depthOf (defaultStyle.indent + MARKER_INDENT) = 1 := by
    simp only [depthOf, defaultStyle, MARKER_INDENT, roundHalfAway]
    rw [if_pos (by norm_num)]
    have h : ((0 : ℚ) + 24) / 24 + 1 / 2 = 1 + 2⁻¹ := by norm_num
    rw [h, d1]
    rfl
  have e2 : depthOf (defaultStyle.indent + MARKER_INDENT + MARKER_INDENT) = 2 := by
    simp only [depthOf, defaultStyle, MARKER_INDENT, roundHalfAway]
    rw [if_pos (by norm_num)]
    have h : ((0 : ℚ) + 24 + 24) / 24 + 1 / 2 = 2 + 2⁻¹ := by norm_num
    rw [h, d2]
    rfl
  refine ⟨?_, by rfl, by rfl, by rfl, by decide, by decide, by decide, by rfl,
    ?_, ?_⟩
  · have h0 : layout ulNested 800 noImg =
        (layout_children ulNested ⟨PAGE_PAD, 800 - PAGE_PAD * 2, 800, noImg⟩
          PAGE_PAD defaultStyle).1 := rfl
    rw [h0, show ulNested = [Node.element "ul" []
        [Node.element "li" []
          [Node.text "x",
           Node.element "ul" [] [Node.element "li" [] [Node.text "y"]]]]] from rfl]
    rw [markerContents_children_singleton]
    rw [ulNested_node_markers _ _ _ (by decide)]
    rw [e1, e2]
  · simp only [depthOf, MARKER_INDENT, roundHalfAway]
    rw [if_pos (by norm_num)]
    have h : (24 : ℚ) / 24 + 1 / 2 = 1 + 2⁻¹ := by norm_num
    rw [h, d1]
    rfl
  · simp only [depthOf, MARKER_INDENT, roundHalfAway]
    rw [if_pos (by norm_num)]
    have h : ((24 : ℚ) + 24) / 24 + 1 / 2 = 2 + 2⁻¹ := by norm_num
    rw [h, d2]
    rfl

/-! ### Whitespace collapsing (C6) -/

/-- Adjacent characters are never both whitespace. -/
def wsRel (a b : Char) : Prop := ¬(a.isWhitespace ∧ b.isWhitespace)

/-- A collapsed string: every whitespace character is a single space, no two
adjacent characters are both whitespace, and neither end is whitespace. -/
def IsCollapsed (s : String) : Prop :=
  (∀ c ∈ s.data, c.isWhitespace → c = ' ') ∧
  List.Chain' wsRel s.data ∧
  (∀ c ∈ s.data.head?, ¬c.isWhitespace) ∧
  (∀ c ∈ s.data.getLast?, ¬c.isWhitespace)

theorem collapseWsGo_space :
    ∀ (l : List Char) (b : Bool), ∀ c ∈ collapseWsGo b l, c.isWhitespace → c = ' ' := by
  intro l
  induction l with
  | nil => simp [collapseWsGo]
  | cons c rest ih =>
    intro b d hd hdw
    simp only [collapseWsGo] at hd
    by_cases hc : c.isWhitespace
    · rw [if_pos hc] at hd
      cases b with
      | true =>
        simp only [if_pos rfl] at hd
        exact ih true d hd hdw
      | false =>
        simp only [Bool.false_eq_true, if_false] at hd
        rcases List.mem_cons.1 hd with h | h
        · exact h
        · exact ih true d h hdw
    · rw [if_neg hc] at hd
      rcases List.mem_cons.1 hd with h | h
      · subst h
        exact absurd hdw hc
      · exact ih false d h hdw

theorem collapseWsGo_chain :
    ∀ l : List Char,
      (∀ b, List.Chain' wsRel (collapseWsGo b l)) ∧
      (∀ c ∈ (collapseWsGo true l).head?, ¬c.isWhitespace) := by
  intro l
  induction l with
  | nil => exact ⟨fun b => by simp [collapseWsGo], by simp [collapseWsGo]⟩
  | cons c rest ih =>
    obtain ⟨ihc, ihh⟩ := ih
    constructor
    · intro b
      simp only [collapseWsGo]
      by_cases hc : c.isWhitespace
      · rw [if_pos hc]
        cases b with
        | true => simpa using ihc true
        | false =>
          simp only [Bool.false_eq_true, if_false]
          rw [List.chain'_cons']
          refine ⟨fun y hy => ?_, ihc true⟩
          intro hcon
          exact ihh y hy hcon.2
      · rw [if_neg hc]
        rw [List.chain'_cons']
        refine ⟨fun y hy hcon => hc hcon.1, ihc false⟩
    · simp only [collapseWsGo]
      by_cases hc : c.isWhitespace
      · rw [if_pos hc]
        simpa using ihh
      · rw [if_neg hc]
        intro d hd
        simp only [List.head?_cons, Option.mem_def, Option.some.injEq] at hd
        subst hd
        exact hc

theorem head_dropWhile_false (p : Char → Bool) :
    ∀ (l : List Char) (c : Char), (l.dropWhile p).head? = some c → p c = false := by
  intro l
  induction l with
  | nil => intro c h; simp [List.dropWhile] at h
  | cons x rest ih =>
    intro c h
    by_cases hx : p x
    · rw [List.dropWhile_cons, if_pos hx] at h
      exact ih c h
    · rw [List.dropWhile_cons, if_neg hx] at h
      simp only [List.head?_cons, Option.some.injEq] at h
      subst h
      exact Bool.not_eq_true _ ▸ (by simpa using hx)

theorem chain_of_isPrefix {α : Type} {R : α → α → Prop} {l1 l2 : List α}
    (hp : l1 <+: l2) (h : List.Chain' R l2) : List.Chain' R l1 := by
  obtain ⟨t, rfl⟩ := hp
  exact (List.chain'_append.1 h).1

theorem rustTrimEnd_isPrefix (l : List Char) : rustTrimEnd l <+: l := by
  obtain ⟨t, ht⟩ := @List.dropWhile_suffix Char l.reverse Char.isWhitespace
  refine ⟨t.reverse, ?_⟩
  have h2 := congrArg List.reverse ht
  simpa [rustTrimEnd] using h2

/-- `collapse_whitespace` always produces a collapsed string. -/
theorem collapse_whitespace_isCollapsed (s : String) :
    IsCollapsed (collapse_whitespace s) := by
  have hdata : (collapse_whitespace s).data =
      rustTrimEnd (collapseWsGo true s.data) := rfl
  have hpre : rustTrimEnd (collapseWsGo true s.data) <+: collapseWsGo true s.data :=
    rustTrimEnd_isPrefix _
  refine ⟨?_, ?_, ?_, ?_⟩
  · intro c hc
    rw [hdata] at hc
    exact collapseWsGo_space s.data true c (hpre.subset hc)
  · rw [hdata]
    exact chain_of_isPrefix hpre ((collapseWsGo_chain s.data).1 true)
  · intro c hc
    rw [hdata] at hc
    obtain ⟨t, ht⟩ := hpre
    rcases he : rustTrimEnd (collapseWsGo true s.data) with _ | ⟨x, xs⟩
    · rw [he] at hc
      simp at hc
    · rw [he] at hc
      simp only [List.head?_cons, Option.mem_def, Option.some.injEq] at hc
      subst hc
      refine (collapseWsGo_chain s.data).2 x ?_
      rw [← ht, he]
      simp
  · intro c hc
    rw [hdata] at hc
    have : (rustTrimEnd (collapseWsGo true s.data)).getLast? =
        (List.dropWhile Char.isWhitespace (collapseWsGo true s.data).reverse).head? := by
      simp only [rustTrimEnd]
      exact List.getLast?_reverse _
    rw [this] at hc
    intro hw
    have := head_dropWhile_false Char.isWhitespace _ c hc
    rw [hw] at this
    cases this

theorem toLowerStr_ne_empty {s : String} (h : s ≠ "") : toLowerStr s ≠ "" := by
  intro hcon
  apply h
  have h2 : (toLowerStr s).data = [] := by rw [hcon]
  simp only [toLowerStr] at h2
  have hd : s.data = [] := by simpa using h2
  cases s with
  | mk data =>
    simp only at hd
    rw [hd]

/-- Every token the scanner can emit is a doctype, an open tag with nonempty
name, a close tag with nonempty name, or a nonempty collapsed text run. -/
theorem tokenizeGo_shape :
    ∀ (fuel : ℕ) (cs : List Char) (t : Token), t ∈ tokenizeGo fuel cs →
      t = Token.doctype ∨
      (∃ name attrs sc, t = Token.openTag name attrs sc ∧ name ≠ "") ∨
      (∃ name, t = Token.closeTag name ∧ name ≠ "") ∨
      (∃ raw, t = Token.text (collapse_whitespace raw) ∧
        collapse_whitespace raw ≠ "") := by
  intro fuel
  induction fuel with
  | zero => intro cs t ht; simp [tokenizeGo] at ht
  | succ fuel ih =>
    intro cs t ht
    simp only [tokenizeGo] at ht
    split at ht
    · simp at ht
    · split at ht
      · split at ht
        · exact ih _ t ht
        · rename_i hne
          rcases List.mem_cons.1 ht with h | h
          · exact Or.inr (Or.inr (Or.inl ⟨_, h, toLowerStr_ne_empty hne⟩))
          · exact ih _ t h
      · rcases List.mem_cons.1 ht with h | h
        · exact Or.inl h
        · exact ih _ t h
      · exact ih _ t ht
      · split at ht
        · exact ih _ t ht
        · rename_i hne
          rcases List.mem_cons.1 ht with h | h
          · exact Or.inr (Or.inl ⟨_, _, _, h, toLowerStr_ne_empty hne⟩)
          · exact ih _ t h
    · split at ht
      · exact ih _ t ht
      · rename_i hne
        rcases List.mem_cons.1 ht with h | h
        · exact Or.inr (Or.inr (Or.inr ⟨_, h, hne⟩))
        · exact ih _ t h

/-- C6: every `Text` token emitted by `tokenize` is nonempty and collapsed
(runs of whitespace reduced to single spaces, ends trimmed); concretely,
`tokenize "<p>  a   b\n c </p>"` emits exactly the text token `"a b c"`. -/
theorem whitespace_collapsing :
    (∀ (input : String) (t : String), Token.text t ∈ tokenize input →
      t ≠ "" ∧ IsCollapsed t) ∧
    tokenize "<p>  a   b\n c </p>" =
      [Token.openTag "p" [] false, Token.text "a b c", Token.closeTag "p"] := by
  constructor
  · intro input t ht
    rcases tokenizeGo_shape _ _ _ ht with h | ⟨n, a, sc, h, _⟩ | ⟨n, h, _⟩ | ⟨raw, h, hne⟩
    · exact absurd h (by simp)
    · exact absurd h (by simp)
    · exact absurd h (by simp)
    · have heq : t = collapse_whitespace raw := by
        injection h
      subst heq
      exact ⟨hne, collapse_whitespace_isCollapsed raw⟩
  · rfl

/-- C6 witness: the theorem applied to the concrete document from the claim
and its text token. -/
theorem whitespace_collapsing_witness :
    Token.text "a b c" ∈ tokenize "<p>  a   b\n c </p>" ∧
    "a b c" ≠ "" ∧ IsCollapsed "a b c" := by
  have hmem : Token.text "a b c" ∈ tokenize "<p>  a   b\n c </p>" := by
    rw [whitespace_collapsing.2]
    simp
  exact ⟨hmem, whitespace_collapsing.1 "<p>  a   b\n c </p>" "a b c" hmem⟩

/-! ### Tree-builder: close-tag collapsing (C2, C4) and totality (C1) -/

/-- Materialize `child` as an `Element` and append it to `parent`'s
children — the body of every pop step of `build_tree`. -/
def absorb (child parent : Partial') : Partial' :=
  { parent with
    children := parent.children ++ [Node.element child.tag child.attrs child.children] }

/-- The result of popping the frames `above` (topmost first) one by one into
the frame below, finally absorbing the accumulated frame into `m`: the
"pop and materialize in pop order" description of the spec. -/
def collapseFrames (above : List Partial') (m : Partial') : Partial' :=
  match above with
  | [] => m
  | a :: rest => absorb (rest.foldl (fun acc b => absorb acc b) a) m

theorem popTopInto_cons (a b : Partial') (rest : List Partial') :
    popTopInto (a :: b :: rest) = some (absorb a b :: rest) := rfl

/-- Auxiliary for `popN_collapse`: one nonempty group of frames above. -/
theorem popN_collapse_cons :
    ∀ (rest : List Partial') (a m : Partial') (tail : List Partial'),
      popN (a :: rest).length ((a :: rest) ++ m :: tail) =
        some (collapseFrames (a :: rest) m :: tail) := by
  intro rest
  induction rest with
  | nil =>
    intro a m tail
    simp only [List.length_cons, List.length_nil, popN, List.cons_append,
      List.nil_append, popTopInto_cons]
    rfl
  | cons b rest2 ih =>
    intro a m tail
    have hstep : popTopInto ((a :: b :: rest2) ++ m :: tail) =
        some ((absorb a b :: rest2) ++ m :: tail) := rfl
    have hcf : collapseFrames (a :: b :: rest2) m =
        collapseFrames (absorb a b :: rest2) m := by
      simp [collapseFrames, List.foldl_cons]
    have hlen : (a :: b :: rest2).length = (absorb a b :: rest2).length + 1 := by
      simp
    rw [hlen]
    simp only [popN, List.cons_append] at hstep ⊢
    rw [hstep]
    rw [hcf]
    exact ih (absorb a b) m tail

/-- Popping `above.length` frames collapses exactly the frames above `m`. -/
theorem popN_collapse (above : List Partial') (m : Partial') (tail : List Partial') :
    popN above.length (above ++ m :: tail) = some (collapseFrames above m :: tail) := by
  cases above with
  | nil => rfl
  | cons a rest => exact popN_collapse_cons rest a m tail

/-- Decomposition of a successful `findIdx?` search. -/
theorem findIdx?_decomp {p : Partial' → Bool} :
    ∀ (l : List Partial') (i : ℕ), l.findIdx? p = some i →
      ∃ pre x suf, l = pre ++ x :: suf ∧ pre.length = i ∧ p x = true := by
  intro l
  induction l with
  | nil => intro i h; simp [List.findIdx?] at h
  | cons a rest ih =>
    intro i h
    rw [List.findIdx?_cons] at h
    by_cases ha : p a
    · rw [if_pos ha] at h
      have h0 : i = 0 := by simpa using h.symm
      subst h0
      exact ⟨[], a, rest, by simp, rfl, ha⟩
    · rw [if_neg ha, List.findIdx?_succ] at h
      obtain ⟨j, hj, rfl⟩ := Option.map_eq_some'.1 h
      obtain ⟨pre, x, suf, hdec, hlen, hx⟩ := ih j hj
      exact ⟨a :: pre, x, suf, by simp [hdec], by simp [hlen], hx⟩

theorem findIdx?_match (p : Partial' → Bool) :
    ∀ (above : List Partial') (m : Partial') (tail : List Partial'),
      (∀ f ∈ above, p f = false) → p m = true →
      (above ++ m :: tail).findIdx? p = some above.length := by
  intro above
  induction above with
  | nil =>
    intro m tail _ hm
    simp [List.findIdx?_cons, hm]
  | cons a rest ih =>
    intro m tail h hm
    have ha : p a = false := h a (List.mem_cons_self a rest)
    rw [List.cons_append, List.findIdx?_cons, if_neg (by simp [ha]), List.findIdx?_succ,
      ih m tail (fun f hf => h f (List.mem_cons_of_mem a hf)) hm]
    simp

/-- The close-tag algorithm on a stack whose topmost match sits below the
frames `above`: every frame of `above` is materialized into the frame below
it in pop order, and the matched frame `m` is finally materialized into its
parent `q`. -/
theorem handleClose_match (name : String) (above : List Partial') (m q : Partial')
    (rest : List Partial') (habove : ∀ f ∈ above, f.tag ≠ name) (hm : m.tag = name) :
    handleClose name (above ++ m :: q :: rest) =
      some (absorb (collapseFrames above m) q :: rest) := by
  unfold handleClose
  have hfi : (above ++ m :: q :: rest).findIdx? (fun p => p.tag == name) =
      some above.length :=
    findIdx?_match _ above m (q :: rest)
      (fun f hf => by simpa using habove f hf) (by simp [hm])
  rw [hfi]
  dsimp only
  rw [popN_collapse above m (q :: rest)]
  rfl

/-! ### C1: totality of `build_tree` -/

/-- The open-element stack is nonempty and its bottom frame is the virtual
root, whose tag is empty. -/
def StackOk (stack : List Partial') : Prop :=
  ∃ p, stack.getLast? = some p ∧ p.tag = ""

theorem stackOk_ne_nil {stack : List Partial'} (h : StackOk stack) : stack ≠ [] := by
  obtain ⟨p, hp, _⟩ := h
  intro hc
  rw [hc] at hp
  cases hp

theorem stackOk_cons {f : Partial'} {stack : List Partial'} (h : StackOk stack) :
    StackOk (f :: stack) := by
  obtain ⟨p, hp, ht⟩ := h
  cases stack with
  | nil => cases hp
  | cons b l =>
    refine ⟨p, ?_, ht⟩
    rw [List.getLast?_cons_cons]
    exact hp

theorem stackOk_head_congr {q new : Partial'} {rest : List Partial'}
    (htag : new.tag = q.tag) (h : StackOk (q :: rest)) : StackOk (new :: rest) := by
  cases rest with
  | nil =>
    obtain ⟨p, hp, ht⟩ := h
    simp only [List.getLast?_singleton, Option.some.injEq] at hp
    refine ⟨new, by simp [List.getLast?_singleton], ?_⟩
    rw [htag, hp, ht]
  | cons b l =>
    obtain ⟨p, hp, ht⟩ := h
    rw [List.getLast?_cons_cons] at hp
    refine ⟨p, ?_, ht⟩
    rw [List.getLast?_cons_cons]
    exact hp

theorem stackOk_popTop {a b : Partial'} {rest : List Partial'}
    (h : StackOk (a :: b :: rest)) : StackOk (absorb a b :: rest) := by
  have h2 : StackOk (b :: rest) := by
    obtain ⟨p, hp, ht⟩ := h
    rw [List.getLast?_cons_cons] at hp
    exact ⟨p, hp, ht⟩
  exact stackOk_head_congr (show (absorb a b).tag = b.tag from rfl) h2

theorem popN_ok :
    ∀ (k : ℕ) (stack : List Partial'), k + 1 ≤ stack.length → StackOk stack →
      ∃ s, popN k stack = some s ∧ s.length + k = stack.length ∧ StackOk s := by
  intro k
  induction k with
  | zero => intro stack _ hok; exact ⟨stack, rfl, by omega, hok⟩
  | succ k ih =>
    intro stack hlen hok
    cases stack with
    | nil => simp at hlen
    | cons a rest =>
      cases rest with
      | nil => simp at hlen
      | cons b rest2 =>
        obtain ⟨s, hs, hl, hok2⟩ := ih (absorb a b :: rest2)
          (by simp at hlen ⊢; omega) (stackOk_popTop hok)
        refine ⟨s, ?_, by simp at hl ⊢; omega, hok2⟩
        simp only [popN, popTopInto_cons]
        exact hs

theorem handleClose_ok (name : String) (hname : name ≠ "") {stack : List Partial'}
    (h : StackOk stack) : ∃ s, handleClose name stack = some s ∧ StackOk s := by
  unfold handleClose
  cases hfi : stack.findIdx? (fun p => p.tag == name) with
  | none => exact ⟨stack, rfl, h⟩
  | some i =>
    obtain ⟨pre, x, suf, hdec, hlen, hx⟩ := findIdx?_decomp stack i hfi
    have hxt : x.tag = name := by simpa using hx
    cases suf with
    | nil =>
      exfalso
      obtain ⟨p, hp, ht⟩ := h
      rw [hdec] at hp
      have hx1 : pre ++ [x] = pre ++ x :: [] := rfl
      rw [← hx1, List.getLast?_concat] at hp
      have hxp : x = p := by injection hp
      exact hname (by rw [← hxt, hxp, ht])
    | cons q rest =>
      subst hlen
      have hqr : StackOk (q :: rest) := by
        obtain ⟨p, hp, ht⟩ := h
        rw [hdec, List.getLast?_append, List.getLast?_cons_cons] at hp
        cases hgl : (q :: rest).getLast? with
        | none => simp [List.getLast?_eq_none_iff] at hgl
        | some z =>
          rw [hgl] at hp
          rw [show (some z).or pre.getLast? = some z from rfl] at hp
          have hzp : z = p := by injection hp
          exact ⟨z, hgl, by rw [hzp, ht]⟩
      dsimp only
      rw [hdec, popN_collapse pre x (q :: rest)]
      exact ⟨_, rfl,
        stackOk_head_congr (show (absorb (collapseFrames pre x) q).tag = q.tag from rfl) hqr⟩

theorem stepToken_ok {stack : List Partial'} {t : Token} (hok : StackOk stack)
    (ht : ∀ name, t = Token.closeTag name → name ≠ "") :
    ∃ s, stepToken stack t = some s ∧ StackOk s := by
  cases t with
  | doctype => exact ⟨stack, rfl, hok⟩
  | openTag name attrs sc =>
    simp only [stepToken]
    split
    · cases stack with
      | nil => exact absurd rfl (stackOk_ne_nil hok)
      | cons top rest =>
        refine ⟨_, rfl, ?_⟩
        exact stackOk_head_congr
          (show ({ top with children := top.children ++
            [Node.element name attrs []] }).tag = top.tag from rfl) hok
    · exact ⟨_, rfl, stackOk_cons hok⟩
  | closeTag name => exact handleClose_ok name (ht name rfl) hok
  | text content =>
    simp only [stepToken]
    cases stack with
    | nil => exact absurd rfl (stackOk_ne_nil hok)
    | cons top rest =>
      refine ⟨_, rfl, ?_⟩
      exact stackOk_head_congr
        (show ({ top with children := top.children ++
          [Node.text content] }).tag = top.tag from rfl) hok

theorem foldl_ok :
    ∀ (tokens : List Token) (stack : List Partial'), StackOk stack →
      (∀ name, Token.closeTag name ∈ tokens → name ≠ "") →
      ∃ s, tokens.foldlM stepToken stack = some s ∧ StackOk s := by
  intro tokens
  induction tokens with
  | nil => exact fun stack h _ => ⟨stack, rfl, h⟩
  | cons t ts ih =>
    intro stack hok hnames
    obtain ⟨s1, hs1, hok1⟩ := stepToken_ok hok
      (fun name hn => hnames name (by rw [← hn]; exact List.mem_cons_self t ts))
    obtain ⟨s2, hs2, hok2⟩ := ih s1 hok1
      (fun name hn => hnames name (List.mem_cons_of_mem t hn))
    refine ⟨s2, ?_, hok2⟩
    rw [List.foldlM_cons, hs1]
    simpa using hs2

/-- Token lists whose close tags all carry a nonempty name. -/
def noEmptyClose (tokens : List Token) : Bool :=
  tokens.all (fun t =>
    match t with
    | Token.closeTag name => !(name == "")
    | _ => true)

/-- C1 (amended): `build_tree` is total on every token sequence whose close
tags have nonempty names — in particular on every output of `tokenize`,
which never emits an empty close-tag name.  (A bare `CloseTag ""` matches
the virtual root and makes the Rust code pop the root and then call
`last_mut().unwrap()` on an empty stack, a panic; see the counterexample.) -/
theorem build_tree_total :
    (∀ tokens : List Token, noEmptyClose tokens = true →
      (build_tree tokens).isSome = true) ∧
    (∀ input : String, noEmptyClose (tokenize input) = true) := by
  constructor
  · intro tokens hne
    have hnames : ∀ name, Token.closeTag name ∈ tokens → name ≠ "" := by
      intro name hmem
      have := List.all_eq_true.1 hne _ hmem
      simpa using this
    unfold build_tree
    obtain ⟨s, hs, hok⟩ := foldl_ok tokens [⟨"", [], []⟩] ⟨_, rfl, rfl⟩ hnames
    rw [hs]
    dsimp only
    have hlen : 1 ≤ s.length := by
      cases s with
      | nil => exact absurd rfl (stackOk_ne_nil hok)
      | cons a l => simp
    obtain ⟨f, hf, hflen, hfok⟩ := popN_ok (s.length - 1) s (by omega) hok
    rw [hf]
    dsimp only
    cases f with
    | nil => exact absurd rfl (stackOk_ne_nil hfok)
    | cons root rest => rfl
  · intro input
    rw [noEmptyClose, List.all_eq_true]
    intro t hmem
    rcases tokenizeGo_shape _ _ _ hmem with h | ⟨n, a, sc, h, _⟩ | ⟨n, h, hne⟩ | ⟨raw, h, _⟩
    all_goals subst h
    · rfl
    · rfl
    · simpa using hne
    · rfl

/-- C1 witness: a stray close tag with a nonempty name is harmless. -/
theorem build_tree_total_witness :
    noEmptyClose [Token.closeTag "p"] = true ∧
    (build_tree [Token.closeTag "p"]).isSome = true :=
  ⟨by rfl, build_tree_total.1 [Token.closeTag "p"] (by rfl)⟩

/-- C1 counterexample: on the token sequence `[CloseTag ""]` the close tag
matches the virtual root frame; the code pops the root and then calls
`stack.last_mut().unwrap()` on the now-empty stack — a panic, modelled here
by `none`. -/
theorem build_tree_total_counterexample :
    build_tree [Token.closeTag ""] = none := by rfl

/-- C2: implicit closing.  Concretely,
`build_tree (tokenize "<div><p>A</div>")` is one `div` whose only child is a
`p` containing the text `"A"`; in general, a close tag whose topmost match
`m` sits below the frames `above` pops and materializes every frame of
`above` into its new parent in pop order (`collapseFrames`), then pops the
matched frame into its parent `q`. -/
theorem implicit_closing :
    build_tree (tokenize "<div><p>A</div>") =
      some [Node.element "div" [] [Node.element "p" [] [Node.text "A"]]] ∧
    (∀ (name : String) (above : List Partial') (m q : Partial')
        (rest : List Partial'),
      (∀ f ∈ above, f.tag ≠ name) → m.tag = name →
      handleClose name (above ++ m :: q :: rest) =
        some (absorb (collapseFrames above m) q :: rest)) :=
  ⟨by rfl, fun name above m q rest h1 h2 => handleClose_match name above m q rest h1 h2⟩

/-- C2 witness: the general pop-order statement applied to the stack of
`<div><p>A` at the moment `</div>` is seen. -/
theorem implicit_closing_witness :
    (∀ f ∈ [(⟨"p", [], [Node.text "A"]⟩ : Partial')], f.tag ≠ "div") ∧
    (⟨"div", [], []⟩ : Partial').tag = "div" ∧
    handleClose "div"
        ([(⟨"p", [], [Node.text "A"]⟩ : Partial')] ++
          (⟨"div", [], []⟩ : Partial') :: (⟨"", [], []⟩ : Partial') :: []) =
      some (absorb
        (collapseFrames [(⟨"p", [], [Node.text "A"]⟩ : Partial')] ⟨"div", [], []⟩)
        ⟨"", [], []⟩ :: []) := by
  have hf : ∀ f ∈ [(⟨"p", [], [Node.text "A"]⟩ : Partial')], f.tag ≠ "div" := by
    intro f hfm
    rw [List.mem_singleton] at hfm
    subst hfm
    simp
  exact ⟨hf, rfl, implicit_closing.2 "div" _ _ _ _ hf rfl⟩

/-- C4: a close tag that matches no frame anywhere in the stack is a
no-op (the stack is returned unchanged); concretely
`build_tree (tokenize "<p>A</b>B</p>")` is one `p` whose children are the
texts `"A"` then `"B"`. -/
theorem unmatched_close_noop :
    (∀ (name : String) (stack : List Partial'),
      (∀ p ∈ stack, p.tag ≠ name) → handleClose name stack = some stack) ∧
    build_tree (tokenize "<p>A</b>B</p>") =
      some [Node.element "p" [] [Node.text "A", Node.text "B"]] := by
  constructor
  · intro name stack h
    unfold handleClose
    have hfi : stack.findIdx? (fun p => p.tag == name) = none :=
      List.findIdx?_eq_none_iff.2 (fun x hx => by simpa using h x hx)
    rw [hfi]
  · rfl

/-- C4 witness: the no-op statement applied to the stack of `<p>A` at the
moment the stray `</b>` is seen. -/
theorem unmatched_close_noop_witness :
    (∀ p ∈ [(⟨"p", [], [Node.text "A"]⟩ : Partial'), ⟨"", [], []⟩], p.tag ≠ "b") ∧
    handleClose "b" [(⟨"p", [], [Node.text "A"]⟩ : Partial'), ⟨"", [], []⟩] =
      some [(⟨"p", [], [Node.text "A"]⟩ : Partial'), ⟨"", [], []⟩] := by
  have hp : ∀ p ∈ [(⟨"p", [], [Node.text "A"]⟩ : Partial'), ⟨"", [], []⟩],
      p.tag ≠ "b" := by
    intro p hpm
    rcases List.mem_cons.1 hpm with h | h
    · subst h; simp
    · rw [List.mem_singleton] at h
      subst h
      simp
  exact ⟨hp, unmatched_close_noop.1 "b" _ hp⟩

end Radium
